import Mathlib

/-
Verification of the Mesa AgentSet tutorial (Boltzmann wealth model).

The repository source is the notebook docs/tutorials/3_agentset.ipynb, which
defines `compute_gini`, `MoneyAgent.give_money`, `MoneyModel.step` (a selecting
variant and a groupby variant), and runs `MoneyModel(100)` for 20 steps.  The
AgentSet library operations it calls (`select`, `groupby`, `shuffle_do`, `do`)
are not part of the given source; those operations are modelled here from the
specification's description of them.  Everything taken from the notebook itself
is translated directly from its Python code.
-/

namespace Mesa

/-- Modelled from the spec: `AgentSet.select(predicate)` (the AgentSet library
code is not in the repository source).  Returns a new collection containing, in
original relative order, every entity for which the predicate evaluates true;
a single linear scan. -/
def select {ε : Type} (s : List ε) (p : ε → Bool) : List ε :=
  s.filter p

/-- Modelled from the spec: `AgentSet.groupby(keyFn)` (the AgentSet library
code is not in the repository source).  Partitions all entities into
collections per distinct key value, preserving relative order within each
group; the returned mapping is modelled as the function from a key to the
group of entities carrying that key. -/
def groupby {ε κ : Type} [DecidableEq κ] (s : List ε) (k : ε → κ) (key : κ) :
    List ε :=
  s.filter (fun e => decide (k e = key))

/-- Modelled from the spec: the sequential dispatch core shared by
`AgentSet.do` and `AgentSet.shuffle_do` (the AgentSet library code is not in
the repository source).  It invokes the named behavior on each entity of
`order` in turn, one invocation completing before the next begins, forwarding
`arg` unchanged to each invocation; an entity whose name does not resolve
signals an error that propagates immediately, halting the remaining
invocations while the state already produced is kept.  The result carries the
final state and the trace of (entity, argument) invocations; an error carries
the failing entity, the state reached so far, and the trace so far. -/
def dispatch {ε σ α : Type} (order : List ε)
    (resolve : ε → Option (σ → α → σ)) (arg : α) (st : σ)
    (tr : List (ε × α)) :
    Except (ε × σ × List (ε × α)) (σ × List (ε × α)) :=
  match order with
  | [] => Except.ok (st, tr)
  | e :: rest =>
    match resolve e with
    | none => Except.error (e, st, tr)
    | some f => dispatch rest resolve arg (f st arg) (tr ++ [(e, arg)])

/-- Modelled from the spec: `AgentSet.do(behaviorName, ...args)` — sequential
dispatch in the collection's existing order, no permutation. -/
def do_ {ε σ α : Type} (s : List ε) (resolve : ε → Option (σ → α → σ))
    (arg : α) (st : σ) :
    Except (ε × σ × List (ε × α)) (σ × List (ε × α)) :=
  dispatch s resolve arg st []

/-- Modelled from the spec: `AgentSet.shuffle_do(behaviorName, ...args)` —
draw a permutation of the collection's current members from the randomness
source `shuffler`, then dispatch sequentially in that order. -/
def shuffle_do {ε σ α : Type} (s : List ε) (shuffler : List ε → List ε)
    (resolve : ε → Option (σ → α → σ)) (arg : α) (st : σ) :
    Except (ε × σ × List (ε × α)) (σ × List (ε × α)) :=
  dispatch (shuffler s) resolve arg st []

/-- Modelled from the spec: a seedable uniform-random source for permutation
generation, as a linear congruential generator on the seed state. -/
def lcg (s : Nat) : Nat :=
  (1103515245 * s + 12345) % 2147483648

/-- Modelled from the spec: permutation generation from the seedable random
source: repeatedly draw an index below the number of remaining members, emit
that member, and continue on the rest with the advanced generator state. -/
def shuffleWithSeed {ε : Type} (g : Nat) (l : List ε) : List ε :=
  match l with
  | [] => []
  | a :: t =>
    (a :: t).getD (g % (a :: t).length) a
      :: shuffleWithSeed (lcg g) ((a :: t).eraseIdx (g % (a :: t).length))
termination_by l.length
decreasing_by
  simp only [List.length_eraseIdx, List.length_cons]
  split
  · omega
  · exact absurd (Nat.mod_lt g (Nat.succ_pos _)) (by assumption)

/-- Modelled from the spec: one run of permutation generation.  A run carries
ambient state (`_env`: everything outside the seeded randomness source that
could differ between two runs of the program); the permutation is produced
from the supplied seed alone. -/
def runShuffle {ε : Type} (_env : Nat) (seed : Nat) (c : List ε) : List ε :=
  shuffleWithSeed seed c

/-- The once-per-member dispatch property of `shuffle_do`: the call succeeds,
its invocation trace is the drawn permutation paired with the forwarded
argument — so the trace's entities are a permutation of the collection, its
length is the collection's size, every invocation receives the very same
argument value, and (memberships being duplicate-free) each member is invoked
exactly once — and the final state is the sequential left fold of the behavior
along the drawn permutation. -/
def ShuffleDoOnceEach {ε σ α : Type} [DecidableEq ε]
    (s : List ε) (shuffler : List ε → List ε)
    (resolve : ε → Option (σ → α → σ)) (b : ε → σ → α → σ)
    (arg : α) (st : σ) : Prop :=
  shuffle_do s shuffler resolve arg st
      = Except.ok ((shuffler s).foldl (fun acc e => b e acc arg) st,
          (shuffler s).map (fun e => (e, arg)))
    ∧ (((shuffler s).map (fun e => (e, arg))).map Prod.fst).Perm s
    ∧ ((shuffler s).map (fun e => (e, arg))).length = s.length
    ∧ (∀ pr ∈ (shuffler s).map (fun e => (e, arg)), pr.2 = arg)
    ∧ (s.Nodup → ∀ e ∈ s,
        ((((shuffler s).map (fun e => (e, arg))).map Prod.fst).count e) = 1)

/-- The halt-on-unknown-behavior property of `do`/`shuffle_do` when the
dispatch order splits as `done ++ e :: rest` with every entity of `done`
resolving and `e` not resolving: the call reports the error at `e`
immediately, the state carries exactly the mutations of the entities of
`done` (kept, not rolled back), the trace carries exactly their invocations,
and no invocation of `rest` is performed. -/
def UnknownBehaviorHalt {ε σ α : Type} (s : List ε)
    (shuffler : List ε → List ε) (done rest : List ε) (e : ε)
    (resolve : ε → Option (σ → α → σ)) (b : ε → σ → α → σ)
    (arg : α) (st : σ) : Prop :=
  shuffle_do s shuffler resolve arg st
      = Except.error (e, done.foldl (fun acc d => b d acc arg) st,
          done.map (fun d => (d, arg)))
    ∧ do_ (done ++ e :: rest) resolve arg st
      = Except.error (e, done.foldl (fun acc d => b d acc arg) st,
          done.map (fun d => (d, arg)))

/-- `MoneyAgent.give_money` from the notebook, over the arena of agent
wealths (index = agent, entry = wealth): when `self` holds positive wealth,
`other_agent.wealth += 1` executes first and `self.wealth -= 1` second, both
on the shared arena (so a self-transfer nets to zero, as the aliased Python
objects do); otherwise nothing happens. -/
def give_money (w : List Int) (self other : Nat) : List Int :=
  if 0 < w.getD self 0 then
    (w.set other (w.getD other 0 + 1)).set self
      ((w.set other (w.getD other 0 + 1)).getD self 0 - 1)
  else
    w

/-- The selection `model.agents.select(lambda a: a.wealth >= 3)` from
`MoneyModel.step`, as the list of agent indices with wealth at least 3. -/
def richOf (w : List Int) : List Nat :=
  (List.range w.length).filter (fun i => decide (3 ≤ w.getD i 0))

/-- The selection `model.agents.select(lambda a: a.wealth < 3)` from
`MoneyModel.step`, as the list of agent indices with wealth below 3. -/
def poorOf (w : List Int) : List Nat :=
  (List.range w.length).filter (fun i => decide (w.getD i 0 < 3))

/-- The group `MoneyModel.step` dispatches `give_money` over: the rich agents
when `len(rich_agents) > 0`, otherwise the poor agents. -/
def actorsOf (w : List Int) : List Nat :=
  if 0 < (richOf w).length then richOf w else poorOf w

/-- One step's dispatch: the scheduled (actor, chosen recipient) pairs run
`give_money` sequentially. -/
def runStep (w : List Int) (acts : List (Nat × Nat)) : List Int :=
  acts.foldl (fun cur p => give_money cur p.1 p.2) w

/-- A schedule one `MoneyModel.step` can draw: the actors are a permutation
of the dispatched group (drawn by `shuffle_do`) and every chosen recipient
lies in `poor_agents`, the pool passed to `give_money` in both branches. -/
def ValidStep (w : List Int) (acts : List (Nat × Nat)) : Prop :=
  (acts.map Prod.fst).Perm (actorsOf w) ∧ ∀ p ∈ acts, p.2 ∈ poorOf w

/-- Modelled from the spec: the arena of a running model — entities shared by
reference (a global attribute store indexed by entity id) and collections as
allocated, independently mutable membership lists, fresh collection ids
counted by `nextColl`. -/
structure World (γ : Type) where
  nextColl : Nat
  colls : Nat → List Nat
  attrs : Nat → γ

/-- Modelled from the spec: `select` allocating its result as a new,
independent collection — a fresh collection id holding the
predicate-filtered membership of the source, entities shared by reference. -/
def selectAlloc {γ : Type} (w : World γ) (c : Nat) (p : γ → Bool) :
    World γ × Nat :=
  (⟨w.nextColl + 1,
    fun i => if i = w.nextColl
      then (w.colls c).filter (fun e => p (w.attrs e))
      else w.colls i,
    w.attrs⟩,
   w.nextColl)

/-- Modelled from the spec: one group of `groupby` allocated as a new,
independent collection holding the source members whose key equals `key`. -/
def groupbyAlloc {γ κ : Type} [DecidableEq κ] (w : World γ) (c : Nat)
    (k : γ → κ) (key : κ) : World γ × Nat :=
  (⟨w.nextColl + 1,
    fun i => if i = w.nextColl
      then (w.colls c).filter (fun e => decide (k (w.attrs e) = key))
      else w.colls i,
    w.attrs⟩,
   w.nextColl)

/-- Mutating a collection's membership in place. -/
def setMembership {γ : Type} (w : World γ) (c : Nat) (m : List Nat) :
    World γ :=
  ⟨w.nextColl, fun i => if i = c then m else w.colls i, w.attrs⟩

/-- Mutating one entity's attributes: entities are shared by reference, so
the store being written is global to every collection referencing them. -/
def setAttr {γ : Type} (w : World γ) (e : Nat) (v : γ) : World γ :=
  ⟨w.nextColl, w.colls, fun i => if i = e then v else w.attrs i⟩

/-- Reading the current attribute values of a collection's entities. -/
def readAttrs {γ : Type} (w : World γ) (c : Nat) : List γ :=
  (w.colls c).map w.attrs

/-- Independence and sharing of a freshly allocated collection `n` (in the
post-allocation world `w₁`) with respect to its source collection `c` of
world `w`: the result is a distinct collection, the allocation left the
source's membership unchanged, mutating the result's membership leaves the
source's membership unchanged (and conversely), while an attribute mutation
of any entity is visible through result and source alike, both reading the
one updated store. -/
def FreshIndep {γ : Type} (w w₁ : World γ) (c n : Nat) : Prop :=
  n ≠ c
    ∧ w₁.colls c = w.colls c
    ∧ (∀ m, (setMembership w₁ n m).colls c = w.colls c)
    ∧ (∀ m, (setMembership w₁ c m).colls n = w₁.colls n)
    ∧ (∀ e v, readAttrs (setAttr w₁ e v) c
          = (w₁.colls c).map (fun i => if i = e then v else w₁.attrs i)
        ∧ readAttrs (setAttr w₁ e v) n
          = (w₁.colls n).map (fun i => if i = e then v else w₁.attrs i))

/-- A concrete arena for exercising the allocation theorem: one existing
collection (id 0) holding entities 0 and 1. -/
def w₀ : World Int :=
  ⟨1, fun _ => [0, 1], fun e => (e : Int)⟩

/-- A concrete selection predicate over the arena `w₀`. -/
def p₀ : Int → Bool :=
  fun x => decide (0 < x)

/-- A concrete grouping key function over the arena `w₀`. -/
def k₀ : Int → Int :=
  fun x => x

/-- The interpreter state the notebook's cells run in: the module-level
binding `model` (the id of the model the global name refers to) and each
model instance's own agents, as their wealth arenas. -/
structure PyEnv (A : Type) where
  globalModel : Nat
  models : Nat → List A

/-- `MoneyModel.step` of the selecting variant as executed on receiver
`_self`: its body reads the module-level global `model` — `rich_agents =
model.agents.select(...)`, `poor_agents = model.agents.select(...)` — so the
schedule is drawn against the global model's agents and the `give_money`
mutations land on the global model's wealth arena; the receiver is never
consulted (the data collection line aside, which is out of scope). -/
def stepSelecting (env : PyEnv Int) (_self : Nat) (acts : List (Nat × Nat)) :
    PyEnv Int :=
  ⟨env.globalModel,
   fun i => if i = env.globalModel
     then runStep (env.models env.globalModel) acts
     else env.models i⟩

/-- The three ethnicity values of the groupby variant. -/
inductive Ethnicity where
  | Green
  | Blue
  | Mixed
deriving DecidableEq

/-- The grouping read of the groupby-variant `MoneyModel.step` on receiver
`_self`: `grouped_agents = model.agents.groupby("ethnicity")` reads the
module-level global `model`, so a key's group is the list of the global
model's agent indices carrying that ethnicity, whatever the receiver. -/
def groupedAgentsOf (env : PyEnv (Int × Ethnicity)) (_self : Nat)
    (eth : Ethnicity) : List Nat :=
  (List.range (env.models env.globalModel).length).filter
    (fun i => decide
      (((env.models env.globalModel).getD i (0, Ethnicity.Mixed)).2 = eth))

/-- A concrete two-model environment for the selecting variant: the global
`model` is instance 0; instance 1 exists alongside it. -/
def env₀ : PyEnv Int :=
  ⟨0, fun _ => [5]⟩

/-- A concrete two-model environment for the groupby variant. -/
def envG₀ : PyEnv (Int × Ethnicity) :=
  ⟨0, fun _ => [(1, Ethnicity.Green)]⟩

/-- `compute_gini` from the notebook, its arithmetic interpreted exactly over
the rationals: sort the wealths ascending, put
`B = sum(xi * (n - i) for i, xi in enumerate(x)) / (n * sum(x))` with `n` the
number of agents, and return `1 + (1 / n) - 2 * B`. -/
def compute_gini (agent_wealths : List ℚ) : ℚ :=
  let x := agent_wealths.mergeSort (fun a b => decide (a ≤ b))
  let n : ℚ := (agent_wealths.length : ℚ)
  let B := ((x.enum.map (fun p => p.2 * (n - (p.1 : ℚ)))).sum) / (n * x.sum)
  1 + 1 / n - 2 * B

/-- The wealth states of the selecting-variant run: `MoneyModel(100)` creates
100 agents of wealth 1, then each `model.step()` performs one scheduled
dispatch. -/
inductive Reachable : List Int → Prop where
  | init : Reachable (List.replicate 100 1)
  | step {w : List Int} {acts : List (Nat × Nat)} :
      Reachable w → ValidStep w acts → Reachable (runStep w acts)

/-- The run invariant of the Boltzmann wealth scenario: 100 agents, total
wealth 100, no negative wealth. -/
def WealthInv (w : List Int) : Prop :=
  w.length = 100 ∧ w.sum = 100 ∧ ∀ x ∈ w, 0 ≤ x

theorem length_filter_add_length_filter_not {ε : Type} (s : List ε)
    (p : ε → Bool) :
    (s.filter p).length + (s.filter (fun e => !(p e))).length = s.length := by
  induction s with
  | nil => rfl
  | cons a t ih =>
    cases h : p a <;> simp [List.filter_cons, h, ← ih] <;> omega

theorem groupby_length_eq_count {ε κ : Type} [DecidableEq κ] (s : List ε)
    (k : ε → κ) (key : κ) :
    (groupby s k key).length = (s.map k).count key := by
  rw [groupby, List.count_eq_countP, List.countP_map,
    List.countP_eq_length_filter]
  rfl

/-- C2: for every collection `C` and predicate `P`, `select P` holds exactly
the entities of `C` satisfying `P`, in `C`'s original relative order (it is a
sublist of `C`), the lengths of `select P` and `select (not P)` sum to the
length of `C`, and an empty result is an ordinary value. -/
theorem select_spec {ε : Type} (s : List ε) (p : ε → Bool) :
    (∀ e, e ∈ select s p ↔ e ∈ s ∧ p e = true)
    ∧ (select s p).Sublist s
    ∧ (select s p).length + (select s (fun e => !(p e))).length = s.length
    ∧ (select [] p = ([] : List ε)) := by
  refine ⟨fun e => ?_, List.filter_sublist s, ?_, rfl⟩
  · exact List.mem_filter
  · exact length_filter_add_length_filter_not s p

/-- C3: for every collection `C` and key function `K`, the groups of
`groupby K` partition `C`: an entity lies in group `key` exactly when it lies
in `C` with key `key` (so each entity is in exactly one group), multiplicities
are preserved, each group is in `C`'s original relative order (a sublist), and
the group sizes over the distinct keys sum to the length of `C`. -/
theorem groupby_partition {ε κ : Type} [DecidableEq ε] [DecidableEq κ]
    (s : List ε) (k : ε → κ) :
    (∀ key e, e ∈ groupby s k key ↔ e ∈ s ∧ k e = key)
    ∧ (∀ e, (groupby s k (k e)).count e = s.count e)
    ∧ (∀ key, (groupby s k key).Sublist s)
    ∧ ((s.map k).dedup.map (fun key => (groupby s k key).length)).sum
        = s.length := by
  refine ⟨fun key e => ?_, fun e => ?_, fun key => List.filter_sublist s, ?_⟩
  · simp [groupby, List.mem_filter]
  · exact List.count_filter (by simp)
  · calc ((s.map k).dedup.map (fun key => (groupby s k key).length)).sum
        = ((s.map k).dedup.map (fun key => (s.map k).count key)).sum := by
          simp only [groupby_length_eq_count]
      _ = (s.map k).length := List.sum_map_count_dedup_eq_length (s.map k)
      _ = s.length := List.length_map s k

theorem dispatch_ok {ε σ α : Type} (order : List ε)
    (resolve : ε → Option (σ → α → σ)) (b : ε → σ → α → σ) (arg : α) :
    ∀ (st : σ) (tr : List (ε × α)),
      (∀ e ∈ order, resolve e = some (b e)) →
      dispatch order resolve arg st tr
        = Except.ok (order.foldl (fun acc e => b e acc arg) st,
            tr ++ order.map (fun e => (e, arg))) := by
  induction order with
  | nil => intro st tr _; simp [dispatch]
  | cons e rest ih =>
    intro st tr h
    have he : resolve e = some (b e) := h e (by simp)
    simp only [dispatch, he]
    rw [ih (b e st arg) (tr ++ [(e, arg)]) (fun d hd => h d (by simp [hd]))]
    simp

theorem dispatch_error {ε σ α : Type} (e : ε) (rest : List ε)
    (resolve : ε → Option (σ → α → σ)) (b : ε → σ → α → σ) (arg : α)
    (he : resolve e = none) :
    ∀ (done : List ε), (∀ d ∈ done, resolve d = some (b d)) →
      ∀ (st : σ) (tr : List (ε × α)),
      dispatch (done ++ e :: rest) resolve arg st tr
        = Except.error (e, done.foldl (fun acc d => b d acc arg) st,
            tr ++ done.map (fun d => (d, arg))) := by
  intro done
  induction done with
  | nil => intro _ st tr; simp [dispatch, he]
  | cons d ds ih =>
    intro h st tr
    have hd : resolve d = some (b d) := h d (by simp)
    simp only [List.cons_append, dispatch, hd, List.append_eq]
    rw [ih (fun x hx => h x (by simp [hx])) (b d st arg) (tr ++ [(d, arg)])]
    simp

theorem getD_cons_eraseIdx_perm {ε : Type} (d : ε) :
    ∀ (l : List ε) (j : Nat), j < l.length →
      (l.getD j d :: l.eraseIdx j).Perm l := by
  intro l
  induction l with
  | nil => intro j hj; simp at hj
  | cons a t ih =>
    intro j hj
    cases j with
    | zero => simp
    | succ j =>
      simp only [List.getD_cons_succ, List.eraseIdx_cons_succ]
      have hjt : j < t.length := by simpa using hj
      exact (List.Perm.swap a _ _).trans ((ih j hjt).cons a)

theorem shuffleWithSeed_perm {ε : Type} (g : Nat) (l : List ε) :
    (shuffleWithSeed g l).Perm l := by
  have H : ∀ (n : Nat) (g : Nat) (l : List ε), l.length = n →
      (shuffleWithSeed g l).Perm l := by
    intro n
    induction n using Nat.strong_induction_on with
    | _ n ih =>
      intro g l hn
      cases l with
      | nil => simp [shuffleWithSeed]
      | cons a t =>
        rw [shuffleWithSeed]
        have hj : g % (a :: t).length < (a :: t).length :=
          Nat.mod_lt _ (by simp)
        have hlen : ((a :: t).eraseIdx (g % (a :: t).length)).length < n := by
          subst hn
          simp only [List.length_eraseIdx, if_pos hj]
          simp
        have ht := ih _ hlen (lcg g)
          ((a :: t).eraseIdx (g % (a :: t).length)) rfl
        exact (ht.cons _).trans (getD_cons_eraseIdx_perm a _ _ hj)
  exact H l.length g l rfl

/-- C4: over a collection whose every member resolves the named behavior,
`shuffle_do` invokes that behavior exactly once per member — no repeats, no
omissions — whatever permutation the randomness source draws, the invocations
are performed sequentially (the final state is the left fold of the behavior
along the permutation), and the argument after the behavior name is forwarded
unchanged, the same value to every invocation. -/
theorem traceMap_fst {ε α : Type} (l : List ε) (arg : α) :
    (l.map (fun e => (e, arg))).map Prod.fst = l := by
  have hcomp : (Prod.fst ∘ fun e : ε => (e, arg)) = id := funext fun _ => rfl
  rw [List.map_map, hcomp, List.map_id]

theorem shuffle_do_once_each {ε σ α : Type} [DecidableEq ε]
    (s : List ε) (shuffler : List ε → List ε)
    (resolve : ε → Option (σ → α → σ)) (b : ε → σ → α → σ) (arg : α) (st : σ)
    (hperm : (shuffler s).Perm s)
    (hres : ∀ e ∈ s, resolve e = some (b e)) :
    ShuffleDoOnceEach s shuffler resolve b arg st := by
  refine ⟨?_, ?_, ?_, ?_, ?_⟩
  · rw [shuffle_do, dispatch_ok (shuffler s) resolve b arg st []
      (fun d hd => hres d (hperm.mem_iff.mp hd))]
    simp
  · rw [traceMap_fst]
    exact hperm
  · simp [hperm.length_eq]
  · intro pr hpr
    rcases List.mem_map.mp hpr with ⟨e, _, rfl⟩
    rfl
  · intro hnd e hes
    rw [traceMap_fst, hperm.count_eq, List.count_eq_one_of_mem hnd hes]

/-- C4 witness: a concrete three-member collection with a reversing shuffler
and an everywhere-defined behavior satisfies the hypotheses, and the
once-per-member dispatch property follows by the theorem. -/
theorem shuffle_do_once_each_witness :
    (List.reverse ([0, 1, 2] : List Nat)).Perm [0, 1, 2]
    ∧ (∀ e ∈ ([0, 1, 2] : List Nat),
        (fun n : Nat => some (fun (acc : Nat) (_ : Unit) => acc + n)) e
          = some ((fun (n acc : Nat) (_ : Unit) => acc + n) e))
    ∧ ShuffleDoOnceEach [0, 1, 2] List.reverse
        (fun n : Nat => some (fun (acc : Nat) (_ : Unit) => acc + n))
        (fun (n acc : Nat) (_ : Unit) => acc + n) () 0 :=
  ⟨by decide, fun _ _ => rfl,
    shuffle_do_once_each [0, 1, 2] List.reverse _ _ () 0 (by decide)
      (fun _ _ => rfl)⟩

/-- C5: if during `do`/`shuffle_do` dispatch an entity is reached whose named
behavior does not resolve, an error propagates immediately — the call reports
the failing entity, the remaining invocations are not performed, and the
mutations made by the entities already processed in that call are kept: no
rollback, no retry, no skip. -/
theorem unknown_behavior_halts {ε σ α : Type} (s : List ε)
    (shuffler : List ε → List ε) (done rest : List ε) (e : ε)
    (resolve : ε → Option (σ → α → σ)) (b : ε → σ → α → σ) (arg : α) (st : σ)
    (hs : shuffler s = done ++ e :: rest)
    (hdone : ∀ d ∈ done, resolve d = some (b d))
    (he : resolve e = none) :
    UnknownBehaviorHalt s shuffler done rest e resolve b arg st := by
  constructor
  · rw [shuffle_do, hs, dispatch_error e rest resolve b arg he done hdone st []]
    simp
  · rw [do_, dispatch_error e rest resolve b arg he done hdone st []]
    simp

/-- C5 witness: a dispatch order `[0] ++ 1 :: [2]` where entity `0` resolves
and entity `1` does not satisfies the hypotheses, and the halt-with-kept-
mutations property follows by the theorem. -/
theorem unknown_behavior_halts_witness :
    ((fun _ : List Nat => [0, 1, 2]) ([] : List Nat) = [0] ++ 1 :: [2])
    ∧ (∀ d ∈ ([0] : List Nat),
        (fun n : Nat =>
            if n = 1 then none
            else some (fun (acc : Nat) (_ : Unit) => acc + n)) d
          = some ((fun (n acc : Nat) (_ : Unit) => acc + n) d))
    ∧ ((fun n : Nat =>
          if n = 1 then none
          else some (fun (acc : Nat) (_ : Unit) => acc + n)) 1 = none)
    ∧ UnknownBehaviorHalt ([] : List Nat) (fun _ => [0, 1, 2]) [0] [2] 1
        (fun n : Nat =>
          if n = 1 then none
          else some (fun (acc : Nat) (_ : Unit) => acc + n))
        (fun (n acc : Nat) (_ : Unit) => acc + n) () 0 := by
  refine ⟨rfl, ?_, rfl, ?_⟩
  · intro d hd
    rw [List.mem_singleton] at hd
    subst hd
    rfl
  · exact unknown_behavior_halts [] (fun _ => [0, 1, 2]) [0] [2] 1 _ _ () 0
      rfl (by intro d hd; rw [List.mem_singleton] at hd; subst hd; rfl) rfl

/-- C6: for every collection and every fixed seed of the randomness source,
two runs of permutation generation — differing in arbitrary ambient run state
but supplied the same seed — produce the same permutation of the collection,
hence `shuffle_do` driven by the two runs performs the same invocation order. -/
theorem shuffle_run_deterministic {ε : Type} (seed : Nat) (c : List ε)
    (env₁ env₂ : Nat) :
    runShuffle env₁ seed c = runShuffle env₂ seed c
    ∧ (runShuffle env₁ seed c).Perm c
    ∧ ∀ (σ α : Type) (resolve : ε → Option (σ → α → σ)) (arg : α) (st : σ),
        shuffle_do c (runShuffle env₁ seed) resolve arg st
          = shuffle_do c (runShuffle env₂ seed) resolve arg st :=
  ⟨rfl, shuffleWithSeed_perm seed c, fun _ _ _ _ _ => rfl⟩

theorem sum_set_int (l : List Int) :
    ∀ (i : Nat) (a : Int), i < l.length →
      (l.set i a).sum = l.sum - l.getD i 0 + a := by
  induction l with
  | nil => intro i a hi; simp at hi
  | cons x t ih =>
    intro i a hi
    cases i with
    | zero =>
      simp only [List.set_cons_zero, List.sum_cons, List.getD_cons_zero]
      ring
    | succ i =>
      have hit : i < t.length := by simpa using hi
      simp only [List.set_cons_succ, List.sum_cons, List.getD_cons_succ]
      rw [ih i a hit]
      ring

theorem length_give_money (w : List Int) (i j : Nat) :
    (give_money w i j).length = w.length := by
  rw [give_money]
  split
  · simp
  · rfl

theorem sum_give_money (w : List Int) (i j : Nat) (hi : i < w.length)
    (hj : j < w.length) : (give_money w i j).sum = w.sum := by
  rw [give_money]
  split
  · have h2 := sum_set_int (w.set j (w.getD j 0 + 1)) i
      ((w.set j (w.getD j 0 + 1)).getD i 0 - 1) (by simpa using hi)
    have h3 := sum_set_int w j (w.getD j 0 + 1) hj
    rw [h2, h3]
    ring
  · rfl

theorem nonneg_give_money (w : List Int) (i j : Nat) (hi : i < w.length)
    (hj : j < w.length) (h : ∀ x ∈ w, 0 ≤ x) :
    ∀ x ∈ give_money w i j, 0 ≤ x := by
  have hjm : 0 ≤ w.getD j 0 := by
    rw [List.getD_eq_getElem w 0 hj]
    exact h _ (List.getElem_mem hj)
  rw [give_money]
  split_ifs with hpos
  · intro x hx
    rcases List.mem_or_eq_of_mem_set hx with hx1 | rfl
    · rcases List.mem_or_eq_of_mem_set hx1 with hx2 | rfl
      · exact h x hx2
      · omega
    · have hlen : i < (w.set j (w.getD j 0 + 1)).length := by simpa using hi
      rw [List.getD_eq_getElem _ 0 hlen, List.getElem_set]
      split_ifs with hji
      · omega
      · rw [← List.getD_eq_getElem w 0 hi]
        omega
  · exact h

theorem mem_richOf_lt {w : List Int} {i : Nat} (hm : i ∈ richOf w) :
    i < w.length := by
  rw [richOf] at hm
  exact List.mem_range.mp (List.mem_filter.mp hm).1

theorem mem_poorOf_lt {w : List Int} {i : Nat} (hm : i ∈ poorOf w) :
    i < w.length := by
  rw [poorOf] at hm
  exact List.mem_range.mp (List.mem_filter.mp hm).1

theorem mem_actorsOf_lt {w : List Int} {i : Nat} (hm : i ∈ actorsOf w) :
    i < w.length := by
  rw [actorsOf] at hm
  split at hm
  · exact mem_richOf_lt hm
  · exact mem_poorOf_lt hm

theorem validStep_bounds {w : List Int} {acts : List (Nat × Nat)}
    (hv : ValidStep w acts) (hlen : w.length = 100) :
    ∀ p ∈ acts, p.1 < 100 ∧ p.2 < 100 := by
  intro p hp
  constructor
  · have h1 : p.1 ∈ acts.map Prod.fst := List.mem_map_of_mem Prod.fst hp
    have h2 : p.1 ∈ actorsOf w := hv.1.mem_iff.mp h1
    rw [← hlen]
    exact mem_actorsOf_lt h2
  · rw [← hlen]
    exact mem_poorOf_lt (hv.2 p hp)

theorem runStep_inv :
    ∀ (acts : List (Nat × Nat)) (w : List Int),
      (∀ p ∈ acts, p.1 < 100 ∧ p.2 < 100) → WealthInv w →
      WealthInv (runStep w acts) := by
  intro acts
  induction acts with
  | nil => intro w _ hw; exact hw
  | cons p rest ih =>
    intro w hb hw
    have h1 : p.1 < w.length := by rw [hw.1]; exact (hb p (by simp)).1
    have h2 : p.2 < w.length := by rw [hw.1]; exact (hb p (by simp)).2
    have hw2 : WealthInv (give_money w p.1 p.2) :=
      ⟨by rw [length_give_money, hw.1],
       by rw [sum_give_money w p.1 p.2 h1 h2, hw.2.1],
       nonneg_give_money w p.1 p.2 h1 h2 hw.2.2⟩
    rw [runStep, List.foldl_cons]
    exact ih (give_money w p.1 p.2) (fun q hq => hb q (by simp [hq])) hw2

theorem reachable_wealthInv {w : List Int} (h : Reachable w) : WealthInv w := by
  induction h with
  | init =>
    refine ⟨by simp, by simp, ?_⟩
    intro x hx
    rw [(List.mem_replicate.mp hx).2]
    omega
  | step hr hv ih =>
    exact runStep_inv _ _ (validStep_bounds hv ih.1) ih

/-- C1: in the Boltzmann wealth scenario — 100 agents created with wealth 1,
stepped repeatedly, each step selecting rich (wealth at least 3) versus poor
(wealth below 3) agents and having the appropriate group `shuffle_do`
`give_money` with recipients drawn from the poor pool — every state reached
after any number of steps still has 100 agents, total wealth summed across
all agents exactly 100, and no agent's wealth negative. -/
theorem money_conservation {w : List Int} (h : Reachable w) :
    w.length = 100 ∧ w.sum = 100 ∧ ∀ x ∈ w, 0 ≤ x :=
  reachable_wealthInv h

/-- C1 witness: the created state of `MoneyModel(100)` is reachable, and the
conservation and non-negativity conclusions hold there by the theorem. -/
theorem money_conservation_witness :
    Reachable (List.replicate 100 1)
    ∧ ((List.replicate 100 (1 : Int)).length = 100
        ∧ (List.replicate 100 (1 : Int)).sum = 100
        ∧ ∀ x ∈ List.replicate 100 (1 : Int), 0 ≤ x) :=
  ⟨Reachable.init, money_conservation Reachable.init⟩

/-- C8: in every reachable state of the selecting-variant `MoneyModel(100)`,
the recipient pool passed to `give_money` — `poor_agents` in both branches of
the step — is non-empty, so `self.random.choice` is never applied to an empty
collection; and when no rich agents exist, all 100 agents are poor. -/
theorem recipient_pool_nonempty {w : List Int} (h : Reachable w) :
    poorOf w ≠ [] ∧ ((richOf w).length = 0 → poorOf w = List.range 100) := by
  obtain ⟨hlen, hsum, _⟩ := reachable_wealthInv h
  constructor
  · intro hpoor
    have hall : ∀ x ∈ w, (3 : Int) ≤ x := by
      intro x hx
      rcases List.mem_iff_getElem.mp hx with ⟨i, hi, rfl⟩
      have hirange : i ∈ List.range w.length := List.mem_range.mpr hi
      have hnot : ¬(decide (w.getD i 0 < 3) = true) := by
        intro hlt
        have hmem : i ∈ poorOf w := by
          rw [poorOf]
          exact List.mem_filter.mpr ⟨hirange, hlt⟩
        rw [hpoor] at hmem
        exact (List.not_mem_nil i) hmem
      rw [decide_eq_true_iff] at hnot
      rw [← List.getD_eq_getElem w 0 hi]
      omega
    have h3 : (w.length : Nat) • (3 : Int) ≤ w.sum :=
      List.card_nsmul_le_sum w 3 hall
    rw [hlen, hsum] at h3
    rw [nsmul_eq_mul] at h3
    norm_num at h3
  · intro hrich
    have hempty : richOf w = [] := List.length_eq_zero.mp hrich
    have hallpoor : ∀ i ∈ List.range w.length,
        decide (w.getD i 0 < 3) = true := by
      intro i hir
      by_contra hno
      have h3 : decide (3 ≤ w.getD i 0) = true := by
        rw [decide_eq_true_iff] at hno ⊢
        omega
      have hmem : i ∈ richOf w := by
        rw [richOf]
        exact List.mem_filter.mpr ⟨hir, h3⟩
      rw [hempty] at hmem
      exact (List.not_mem_nil i) hmem
    have hp : poorOf w = List.range w.length := by
      rw [poorOf]
      exact List.filter_eq_self.mpr hallpoor
    rw [hp, hlen]

/-- C8 witness: the created state of `MoneyModel(100)` is reachable, and the
non-empty-pool conclusions hold there by the theorem. -/
theorem recipient_pool_nonempty_witness :
    Reachable (List.replicate 100 1)
    ∧ (poorOf (List.replicate 100 (1 : Int)) ≠ []
        ∧ ((richOf (List.replicate 100 (1 : Int))).length = 0 →
            poorOf (List.replicate 100 (1 : Int)) = List.range 100)) :=
  ⟨Reachable.init, recipient_pool_nonempty Reachable.init⟩

/-- C7: every collection returned by `select` or `groupby` is a new,
independent ordered sequence: it is a fresh collection holding the filtered
membership, allocating it and mutating its membership leave the source
collection's membership unchanged (and mutating the source leaves it
unchanged), while mutating a referenced entity's attributes is visible
through either collection, since entities are shared by reference. -/
theorem select_groupby_alloc_independent {γ κ : Type} [DecidableEq κ]
    (w : World γ) (c : Nat) (p : γ → Bool) (k : γ → κ) (key : κ)
    (hc : c < w.nextColl) :
    (FreshIndep w (selectAlloc w c p).1 c (selectAlloc w c p).2
      ∧ (selectAlloc w c p).1.colls (selectAlloc w c p).2
          = (w.colls c).filter (fun e => p (w.attrs e)))
    ∧ (FreshIndep w (groupbyAlloc w c k key).1 c (groupbyAlloc w c k key).2
      ∧ (groupbyAlloc w c k key).1.colls (groupbyAlloc w c k key).2
          = (w.colls c).filter (fun e => decide (k (w.attrs e) = key))) := by
  have hne : c ≠ w.nextColl := Nat.ne_of_lt hc
  constructor
  · refine ⟨⟨Ne.symm hne, ?_, ?_, ?_, ?_⟩, ?_⟩
    · simp [selectAlloc, hne]
    · intro m
      simp [selectAlloc, setMembership, hne]
    · intro m
      simp [selectAlloc, setMembership, hne, Ne.symm hne]
    · intro e v
      exact ⟨rfl, rfl⟩
    · simp [selectAlloc]
  · refine ⟨⟨Ne.symm hne, ?_, ?_, ?_, ?_⟩, ?_⟩
    · simp [groupbyAlloc, hne]
    · intro m
      simp [groupbyAlloc, setMembership, hne]
    · intro m
      simp [groupbyAlloc, setMembership, hne, Ne.symm hne]
    · intro e v
      exact ⟨rfl, rfl⟩
    · simp [groupbyAlloc]

/-- C7 witness: on the concrete arena `w₀`, source collection 0 is a valid
collection id, and the independence and sharing properties of its `select`
and `groupby` results hold by the theorem. -/
theorem select_groupby_alloc_independent_witness :
    0 < w₀.nextColl
    ∧ ((FreshIndep w₀ (selectAlloc w₀ 0 p₀).1 0 (selectAlloc w₀ 0 p₀).2
        ∧ (selectAlloc w₀ 0 p₀).1.colls (selectAlloc w₀ 0 p₀).2
            = (w₀.colls 0).filter (fun e => p₀ (w₀.attrs e)))
      ∧ (FreshIndep w₀ (groupbyAlloc w₀ 0 k₀ 0).1 0
            (groupbyAlloc w₀ 0 k₀ 0).2
        ∧ (groupbyAlloc w₀ 0 k₀ 0).1.colls (groupbyAlloc w₀ 0 k₀ 0).2
            = (w₀.colls 0).filter (fun e => decide (k₀ (w₀.attrs e) = 0)))) :=
  ⟨by decide, select_groupby_alloc_independent w₀ 0 p₀ k₀ 0 (by decide)⟩

/-- C9: in both variants `MoneyModel.step` reads the module-level global
`model`, not `self`, when selecting or grouping the agents to dispatch over:
for an instance `m` other than the object bound to the global, `m.step()`
leaves `m`'s own agents unchanged, applies the dispatch to the global
model's agents, behaves identically to the global model's own step, and the
groupby variant's grouping is likewise independent of the receiver. -/
theorem step_reads_global_model (env : PyEnv Int)
    (envG : PyEnv (Int × Ethnicity)) (m mG : Nat) (acts : List (Nat × Nat))
    (hm : m ≠ env.globalModel) :
    (stepSelecting env m acts).models m = env.models m
    ∧ (stepSelecting env m acts).models env.globalModel
        = runStep (env.models env.globalModel) acts
    ∧ stepSelecting env m acts = stepSelecting env env.globalModel acts
    ∧ ∀ eth, groupedAgentsOf envG mG eth
        = groupedAgentsOf envG envG.globalModel eth := by
  refine ⟨?_, ?_, rfl, fun eth => rfl⟩
  · simp [stepSelecting, hm]
  · simp [stepSelecting]

/-- C9 witness: in the concrete environment `env₀` (global model 0, other
instance 1), instance 1 is not the global binding, and the conclusions hold
by the theorem. -/
theorem step_reads_global_model_witness :
    (1 : Nat) ≠ env₀.globalModel
    ∧ ((stepSelecting env₀ 1 []).models 1 = env₀.models 1
        ∧ (stepSelecting env₀ 1 []).models env₀.globalModel
            = runStep (env₀.models env₀.globalModel) []
        ∧ stepSelecting env₀ 1 [] = stepSelecting env₀ env₀.globalModel []
        ∧ ∀ eth, groupedAgentsOf envG₀ 1 eth
            = groupedAgentsOf envG₀ envG₀.globalModel eth) :=
  ⟨by decide, step_reads_global_model env₀ envG₀ 1 1 [] (by decide)⟩

theorem gini_sum_replicate (v k : ℚ) :
    ∀ (m : Nat) (s : Nat),
      (((List.replicate m v).enumFrom s).map
          (fun p => p.2 * (k - (p.1 : ℚ)))).sum
        = v * (m * (k - s) - m * (m - 1) / 2) := by
  intro m
  induction m with
  | zero =>
    intro s
    simp
  | succ m ih =>
    intro s
    rw [List.replicate_succ, List.enumFrom_cons, List.map_cons,
      List.sum_cons, ih (s + 1)]
    push_cast
    ring

/-- C10: for every model whose n ≥ 1 agents all hold the same positive
wealth w, `compute_gini`, its arithmetic interpreted exactly over the
rationals, returns exactly 0. -/
theorem compute_gini_equal_wealth (l : List ℚ) (v : ℚ) (hne : l ≠ [])
    (hall : ∀ x ∈ l, x = v) (hv : 0 < v) :
    compute_gini l = 0 := by
  have hn0 : l.length ≠ 0 := fun h => hne (List.length_eq_zero.mp h)
  have hL : ((l.length : ℚ)) ≠ 0 := Nat.cast_ne_zero.mpr hn0
  have hv0 : v ≠ 0 := ne_of_gt hv
  have hsort : l.mergeSort (fun a b => decide (a ≤ b))
      = List.replicate l.length v := by
    apply List.eq_replicate_iff.mpr
    constructor
    · exact (List.mergeSort_perm l _).length_eq
    · intro b hb
      exact hall b ((List.mergeSort_perm l _).mem_iff.mp hb)
  rw [compute_gini]
  rw [hsort]
  have henum : (List.replicate l.length v).enum
      = (List.replicate l.length v).enumFrom 0 := rfl
  rw [henum, gini_sum_replicate v (l.length : ℚ) l.length 0,
    List.sum_replicate, nsmul_eq_mul]
  push_cast
  field_simp
  ring

/-- C10 witness: three agents of equal wealth 1 satisfy the hypotheses, and
`compute_gini` of that state is exactly 0 by the theorem. -/
theorem compute_gini_equal_wealth_witness :
    (([1, 1, 1] : List ℚ) ≠ [])
    ∧ (∀ x ∈ ([1, 1, 1] : List ℚ), x = 1)
    ∧ (0 : ℚ) < 1
    ∧ compute_gini [1, 1, 1] = 0 :=
  ⟨by simp, by simp, zero_lt_one,
    compute_gini_equal_wealth [1, 1, 1] 1 (by simp) (by simp) zero_lt_one⟩

end Mesa
